import Mathlib

/-!
Shallow embedding of `src/libtrees/tree.hpp` (namespace `tree`, classes
`TreeNode<T>` and `Tree<T>`).

Modelling choices:
- A `TreeNode<T>` object is a `Node`: its `m_content` (instantiated at `Int`),
  its `m_parent` weak pointer (an `Option Nat` naming a heap slot; `none` is an
  empty `weak_ptr`), and its `m_children` vector of `shared_ptr`s (a
  `List Nat` of heap slots, ordered).
- The object graph is a `Heap`: a list of slots, each either `some` live node
  or `none` (a destroyed object; a weak pointer to such a slot is stale and
  `lock()` yields null).
- Methods that mutate become functions `Heap → ... → Option Heap` (or return
  extra data); `none` models a thrown exception or a call through a null
  handle.
- The size/append/recursive-drop claims concern only the `m_children`
  structure, so they are additionally settled on `RTree`, the ordered
  rose-tree view of that structure, with tree positions addressed by paths
  of child indices.
-/

namespace CppTrees

/-- One `TreeNode<int>` object: content, weak parent pointer, children. -/
structure Node where
  content : Int
  parent : Option Nat
  children : List Nat
deriving DecidableEq

/-- The object heap: slot `i` holds `some` node while the object is alive. -/
abbrev Heap := List (Option Node)

/-- Dereference slot `i`: `some` node if alive, else `none`. -/
def lookup : Heap → Nat → Option Node
  | [], _ => none
  | x :: _, 0 => x
  | _ :: xs, n + 1 => lookup xs n

/-- Overwrite slot `i` with a live node (no effect past the end). -/
def setNode : Heap → Nat → Node → Heap
  | [], _, _ => []
  | _ :: xs, 0, nd => some nd :: xs
  | x :: xs, n + 1, nd => x :: setNode xs n nd

theorem lookup_lt_length {h : Heap} {q : Nat} {nd : Node}
    (hq : lookup h q = some nd) : q < h.length := by
  induction h generalizing q with
  | nil => simp [lookup] at hq
  | cons x xs ih =>
    cases q with
    | zero => simp
    | succ n => exact Nat.succ_lt_succ (ih hq)

theorem length_setNode (h : Heap) (p : Nat) (nd : Node) :
    (setNode h p nd).length = h.length := by
  induction h generalizing p with
  | nil => rfl
  | cons x xs ih =>
    cases p with
    | zero => rfl
    | succ n => simpa [setNode] using ih n

theorem lookup_setNode_eq {h : Heap} {p : Nat} (nd : Node) (hp : p < h.length) :
    lookup (setNode h p nd) p = some nd := by
  induction h generalizing p with
  | nil => simp at hp
  | cons x xs ih =>
    cases p with
    | zero => rfl
    | succ n => exact ih (Nat.lt_of_succ_lt_succ hp)

theorem lookup_setNode_ne {h : Heap} {p q : Nat} (nd : Node) (hne : q ≠ p) :
    lookup (setNode h p nd) q = lookup h q := by
  induction h generalizing p q with
  | nil => rfl
  | cons x xs ih =>
    cases p with
    | zero =>
      cases q with
      | zero => exact absurd rfl hne
      | succ m => rfl
    | succ n =>
      cases q with
      | zero => rfl
      | succ m => exact ih fun hc => hne (by simp [hc])

theorem lookup_append_lt {h : Heap} (l : Heap) {q : Nat} (hq : q < h.length) :
    lookup (h ++ l) q = lookup h q := by
  induction h generalizing q with
  | nil => simp at hq
  | cons x xs ih =>
    cases q with
    | zero => rfl
    | succ n => exact ih (Nat.lt_of_succ_lt_succ hq)

theorem lookup_append_self (h : Heap) (x : Option Node) :
    lookup (h ++ [x]) h.length = x := by
  induction h with
  | nil => rfl
  | cons y ys ih => simpa [lookup] using ih

/-- `std::vector::insert(begin() + i, a)`, for `i ≤ length`. -/
def insertAt : List Nat → Nat → Nat → List Nat
  | l, 0, a => a :: l
  | [], _ + 1, a => [a]
  | x :: xs, i + 1, a => x :: insertAt xs i a

theorem mem_insertAt {l : List Nat} {i a b : Nat} :
    b ∈ insertAt l i a ↔ b = a ∨ b ∈ l := by
  induction l generalizing i with
  | nil =>
    cases i with
    | zero => simp [insertAt]
    | succ n => simp [insertAt]
  | cons x xs ih =>
    cases i with
    | zero => simp [insertAt]
    | succ n =>
      simp only [insertAt, List.mem_cons, ih]
      tauto

theorem get?_insertAt_self {l : List Nat} {i : Nat} (a : Nat) (hi : i ≤ l.length) :
    (insertAt l i a).get? i = some a := by
  induction l generalizing i with
  | nil =>
    cases i with
    | zero => rfl
    | succ n => simp at hi
  | cons x xs ih =>
    cases i with
    | zero => rfl
    | succ n => exact ih (Nat.le_of_succ_le_succ hi)

/-- `std::vector::erase(begin() + i)`. -/
def eraseAt : List Nat → Nat → List Nat
  | [], _ => []
  | _ :: xs, 0 => xs
  | x :: xs, i + 1 => x :: eraseAt xs i

theorem mem_eraseAt {l : List Nat} {i b : Nat} (hb : b ∈ eraseAt l i) : b ∈ l := by
  induction l generalizing i with
  | nil => simp [eraseAt] at hb
  | cons x xs ih =>
    cases i with
    | zero => exact List.mem_cons_of_mem x hb
    | succ n =>
      rcases List.mem_cons.mp hb with h | h
      · exact List.mem_cons.mpr (Or.inl h)
      · exact List.mem_cons_of_mem x (ih h)

/-- `std::find` followed by `erase`: drop the first occurrence if present. -/
def eraseFirst : List Nat → Nat → List Nat
  | [], _ => []
  | x :: xs, c => if x = c then xs else x :: eraseFirst xs c

theorem mem_eraseFirst {l : List Nat} {c b : Nat} (hb : b ∈ eraseFirst l c) : b ∈ l := by
  induction l with
  | nil => simp [eraseFirst] at hb
  | cons x xs ih =>
    by_cases hx : x = c
    · simp only [eraseFirst, if_pos hx] at hb
      exact List.mem_cons_of_mem x hb
    · simp only [eraseFirst, if_neg hx] at hb
      rcases List.mem_cons.mp hb with h | h
      · exact List.mem_cons.mpr (Or.inl h)
      · exact List.mem_cons_of_mem x (ih h)

/-- Number of occurrences of `c` in a children vector. -/
def countOcc : List Nat → Nat → Nat
  | [], _ => 0
  | x :: xs, c => (if x = c then 1 else 0) + countOcc xs c

theorem not_mem_eraseFirst_of_countOcc_le_one {l : List Nat} {c : Nat}
    (hc : countOcc l c ≤ 1) : c ∉ eraseFirst l c := by
  induction l with
  | nil => simp [eraseFirst]
  | cons x xs ih =>
    by_cases hx : x = c
    · simp only [eraseFirst, if_pos hx]
      simp only [countOcc, if_pos hx] at hc
      intro hmem
      have : 1 ≤ countOcc xs c := by
        clear hc ih
        induction xs with
        | nil => simp at hmem
        | cons y ys ihy =>
          rcases List.mem_cons.mp hmem with h | h
          · simp [countOcc, h.symm]
          · have := ihy h
            simp only [countOcc]
            omega
      omega
    · simp only [eraseFirst, if_neg hx]
      simp only [countOcc, if_neg hx] at hc
      intro hmem
      rcases List.mem_cons.mp hmem with h | h
      · exact hx h.symm
      · exact ih (by omega) h

/-!
Embeddings of the `TreeNode` methods on the heap. Each mirrors the body in
`tree.hpp`; `none` models a thrown exception or a call through a null handle.
-/

/-- `m_parent.lock()`: `some` parent slot only when the weak pointer is set
and its target is still alive; an unset or stale pointer locks to null. -/
def lockParent (h : Heap) (nd : Node) : Option Nat :=
  match nd.parent with
  | none => none
  | some pid =>
    match lookup h pid with
    | some _ => some pid
    | none => none

/-- `TreeNode::Append(value)` (tree.hpp:156): construct a fresh child whose
parent is `this`, then `push_back` it. Returns the new heap and new slot. -/
def appendValueF (h : Heap) (p : Nat) (v : Int) : Option (Heap × Nat) :=
  match lookup h p with
  | none => none
  | some pnd =>
    some (setNode (h ++ [some ⟨v, some p, []⟩]) p
      { pnd with children := pnd.children ++ [h.length] }, h.length)

/-- `TreeNode::Insert(value, index)` (tree.hpp:93): if `index <= size` insert
the fresh child at `index`, else fall through to `Append`. The in-range
branch constructs the child with `this` as parent (the source passes the
raw `this` where `Append` passes `GetSharedPtr()`; both name the same
node), and the out-of-range branch hands the value to `Append`. -/
def insertValueF (h : Heap) (p : Nat) (v : Int) (idx : Nat) : Option (Heap × Nat) :=
  match lookup h p with
  | none => none
  | some pnd =>
    if idx ≤ pnd.children.length then
      some (setNode (h ++ [some ⟨v, some p, []⟩]) p
        { pnd with children := insertAt pnd.children idx h.length }, h.length)
    else
      appendValueF h p v

/-- `TreeNode::Append(node)` (tree.hpp:164): null argument throws; otherwise
set `node->m_parent = this` and `push_back` the handle. -/
def appendNodeF (h : Heap) (p c : Nat) : Option Heap :=
  match lookup h p, lookup h c with
  | some _, some cnd =>
    let h1 := setNode h c { cnd with parent := some p }
    match lookup h1 p with
    | some pnd1 => some (setNode h1 p { pnd1 with children := pnd1.children ++ [c] })
    | none => none
  | _, _ => none

/-- `TreeNode::Insert(node, index)` (tree.hpp:132): null argument throws; in
range, re-parent the node and insert its handle at `index`; out of range,
fall through to `Append(node)`. -/
def insertNodeF (h : Heap) (p c : Nat) (idx : Nat) : Option Heap :=
  match lookup h p, lookup h c with
  | some pnd, some cnd =>
    if idx ≤ pnd.children.length then
      let h1 := setNode h c { cnd with parent := some p }
      match lookup h1 p with
      | some pnd1 => some (setNode h1 p { pnd1 with children := insertAt pnd1.children idx c })
      | none => none
    else
      appendNodeF h p c
  | _, _ => none

/-- `TreeNode::RemoveChild(index)` (tree.hpp:192): throws `out_of_range` when
`index >= size`, else erases the slot from the vector. -/
def removeChildAtF (h : Heap) (p : Nat) (idx : Nat) : Option Heap :=
  match lookup h p with
  | none => none
  | some pnd =>
    if idx ≥ pnd.children.length then none
    else some (setNode h p { pnd with children := eraseAt pnd.children idx })

/-- `TreeNode::RemoveChild(node)` (tree.hpp:212): erase the first occurrence
found by `std::find`; silently do nothing when absent. -/
def removeChildNodeImpl (h : Heap) (p c : Nat) : Heap :=
  match lookup h p with
  | none => h
  | some pnd => setNode h p { pnd with children := eraseFirst pnd.children c }

/-- `RemoveChild(node)` as called on a live receiver `p`. -/
def removeChildNodeF (h : Heap) (p c : Nat) : Option Heap :=
  match lookup h p with
  | none => none
  | some _ => some (removeChildNodeImpl h p c)

/-- `TreeNode::Detatch` (tree.hpp:255): when `m_parent.lock()` is non-null the
parent erases this node from its children; either way the function returns
`shared_from_this()`. The inner `return nullptr` branch of the source is
unreachable because the same lock is consulted twice. The node's own
`m_parent` field is never written. -/
def detatchF (h : Heap) (c : Nat) : Option (Heap × Option Nat) :=
  match lookup h c with
  | none => none
  | some cnd =>
    match lockParent h cnd with
    | some pid => some (removeChildNodeImpl h pid c, some c)
    | none => some (h, some c)

/-- `TreeNode::Drop` (tree.hpp:279): remove this node from a live parent as
`Detatch` does, then return the current `m_children` vector. -/
def dropF (h : Heap) (c : Nat) : Option (Heap × List Nat) :=
  match lookup h c with
  | none => none
  | some cnd =>
    let h1 :=
      match lockParent h cnd with
      | some pid => removeChildNodeImpl h pid c
      | none => h
    match lookup h1 c with
    | some cnd1 => some (h1, cnd1.children)
    | none => none

/-- `Tree::AddRootNode(content, index)` (tree.hpp:451): allocate a fresh
parentless node; a negative or past-the-end index appends to `m_root`,
otherwise the node is inserted at `index`. Returns heap and new root list. -/
def addRootNodeContentF (h : Heap) (roots : List Nat) (v : Int) (index : Int) :
    Heap × List Nat :=
  let h1 := h ++ [some ⟨v, none, []⟩]
  if index < 0 ∨ (roots.length : Int) < index then (h1, roots ++ [h.length])
  else (h1, insertAt roots index.toNat h.length)

/-!
Invariant I2 (parent consistency) and the mutation sequences of claim C1.
-/

/-- Invariant I2: every slot listed in a live node's `m_children` is itself
alive and its `m_parent` resolves to that node. -/
def I2P (h : Heap) : Prop :=
  ∀ p pnd, lookup h p = some pnd →
    ∀ c ∈ pnd.children, ∃ cnd, lookup h c = some cnd ∧ cnd.parent = some p

/-- Executable check for one child slot of `I2P`. -/
def childOkB (h : Heap) (p c : Nat) : Bool :=
  match lookup h c with
  | some cnd => cnd.parent == some p
  | none => false

/-- Executable check for `I2P`. -/
def I2B (h : Heap) : Bool :=
  (List.range h.length).all fun p =>
    match lookup h p with
    | some nd => nd.children.all (childOkB h p)
    | none => true

theorem I2B_iff {h : Heap} : I2B h = true ↔ I2P h := by
  constructor
  · intro hb p pnd hp c hc
    have hlt : p < h.length := lookup_lt_length hp
    have := (List.all_eq_true.mp hb) p (List.mem_range.mpr hlt)
    rw [hp] at this
    have hcb := (List.all_eq_true.mp this) c hc
    unfold childOkB at hcb
    rcases hcnd : lookup h c with _ | cnd
    · rw [hcnd] at hcb; exact absurd hcb (by simp)
    · rw [hcnd] at hcb
      exact ⟨cnd, rfl, by simpa using hcb⟩
  · intro hI
    refine List.all_eq_true.mpr fun p _ => ?_
    rcases hp : lookup h p with _ | pnd
    · rfl
    · refine List.all_eq_true.mpr fun c hc => ?_
      obtain ⟨cnd, hcnd, hcp⟩ := hI p pnd hp c hc
      simp [childOkB, hcnd, hcp]

instance (h : Heap) : Decidable (I2P h) :=
  decidable_of_iff (I2B h = true) I2B_iff

/-- Slot `c` is not currently held in any live node's `m_children`. -/
def UnattachedP (h : Heap) (c : Nat) : Prop :=
  ∀ p pnd, lookup h p = some pnd → c ∉ pnd.children

/-- Executable check for `UnattachedP`. -/
def unattachedB (h : Heap) (c : Nat) : Bool :=
  (List.range h.length).all fun p =>
    match lookup h p with
    | some nd => decide (c ∉ nd.children)
    | none => true

theorem unattachedB_iff {h : Heap} {c : Nat} :
    unattachedB h c = true ↔ UnattachedP h c := by
  constructor
  · intro hb p pnd hp hc
    have hlt : p < h.length := lookup_lt_length hp
    have := (List.all_eq_true.mp hb) p (List.mem_range.mpr hlt)
    rw [hp] at this
    exact (of_decide_eq_true this) hc
  · intro hu
    refine List.all_eq_true.mpr fun p _ => ?_
    rcases hp : lookup h p with _ | pnd
    · rfl
    · exact decide_eq_true (hu p pnd hp)

instance (h : Heap) (c : Nat) : Decidable (UnattachedP h c) :=
  decidable_of_iff (unattachedB h c = true) unattachedB_iff

/-- The mutating calls quantified over by claim C1. -/
inductive Op where
  | insertValue (p : Nat) (v : Int) (idx : Nat)
  | insertNode (p c : Nat) (idx : Nat)
  | appendValue (p : Nat) (v : Int)
  | appendNode (p c : Nat)
  | removeChildAt (p : Nat) (idx : Nat)
  | removeChildNode (p c : Nat)
  | detatch (c : Nat)
deriving DecidableEq

/-- Heap effect of one call (return values discarded). -/
def execOp (h : Heap) : Op → Option Heap
  | .insertValue p v idx => (insertValueF h p v idx).map Prod.fst
  | .insertNode p c idx => insertNodeF h p c idx
  | .appendValue p v => (appendValueF h p v).map Prod.fst
  | .appendNode p c => appendNodeF h p c
  | .removeChildAt p idx => removeChildAtF h p idx
  | .removeChildNode p c => removeChildNodeF h p c
  | .detatch c => (detatchF h c).map Prod.fst

/-- Run a sequence of calls, stopping at the first failure. -/
def execList (h : Heap) : List Op → Option Heap
  | [] => some h
  | op :: ops => (execOp h op).bind fun h1 => execList h1 ops

/-- The existing-node handle an operation adopts, if any. -/
def adoptedNode : Op → Option Nat
  | .insertNode _ c _ => some c
  | .appendNode _ c => some c
  | _ => none

/-- One call, refused unless any adopted existing node is currently
unattached (the discipline the spec's design notes ask callers to follow). -/
def safeStep (h : Heap) (op : Op) : Option Heap :=
  match adoptedNode op with
  | some c => if unattachedB h c then execOp h op else none
  | none => execOp h op

/-- Run a sequence of calls under the unattached-adoption discipline. -/
def safeRun (h : Heap) : List Op → Option Heap
  | [] => some h
  | op :: ops => (safeStep h op).bind fun h1 => safeRun h1 ops

/-!
Preservation of I2 by each mutating call.
-/

theorem I2P_setChildren_sub (h : Heap) (p : Nat) (pnd : Node) (newCh : List Nat)
    (hI : I2P h) (hp : lookup h p = some pnd)
    (hsub : ∀ b ∈ newCh, b ∈ pnd.children) :
    I2P (setNode h p { pnd with children := newCh }) := by
  intro q qnd hq c hc
  have hplt : p < h.length := lookup_lt_length hp
  by_cases hqp : q = p
  · subst hqp
    rw [lookup_setNode_eq _ hplt] at hq
    injection hq with hq
    subst hq
    have hc' : c ∈ pnd.children := hsub c hc
    obtain ⟨cnd, hcnd, hpar⟩ := hI q pnd hp c hc'
    by_cases hcp : c = q
    · subst hcp
      rw [hp] at hcnd
      injection hcnd with hcnd
      subst hcnd
      exact ⟨_, lookup_setNode_eq _ hplt, hpar⟩
    · exact ⟨cnd, by rw [lookup_setNode_ne _ hcp]; exact hcnd, hpar⟩
  · rw [lookup_setNode_ne _ hqp] at hq
    obtain ⟨cnd, hcnd, hpar⟩ := hI q qnd hq c hc
    by_cases hcp : c = p
    · subst hcp
      rw [hp] at hcnd
      injection hcnd with hcnd
      subst hcnd
      exact ⟨_, lookup_setNode_eq _ hplt, hpar⟩
    · exact ⟨cnd, by rw [lookup_setNode_ne _ hcp]; exact hcnd, hpar⟩

theorem I2P_insertFresh (h : Heap) (p : Nat) (v : Int) (pnd : Node) (newCh : List Nat)
    (hI : I2P h) (hp : lookup h p = some pnd)
    (hch : ∀ b ∈ newCh, b = h.length ∨ b ∈ pnd.children) :
    I2P (setNode (h ++ [some ⟨v, some p, []⟩]) p { pnd with children := newCh }) := by
  intro q qnd hq c hc
  have hplt : p < h.length := lookup_lt_length hp
  have hplt1 : p < (h ++ [some (⟨v, some p, []⟩ : Node)]).length := by
    simp only [List.length_append, List.length_cons, List.length_nil]
    omega
  have hlift : ∀ x xnd, lookup h x = some xnd →
      lookup (h ++ [some (⟨v, some p, []⟩ : Node)]) x = some xnd := fun x xnd hx => by
    rw [lookup_append_lt _ (lookup_lt_length hx)]; exact hx
  by_cases hqp : q = p
  · subst hqp
    rw [lookup_setNode_eq _ hplt1] at hq
    injection hq with hq
    subst hq
    rcases hch c hc with hcn | hcold
    · subst hcn
      have hcne : (h.length : Nat) ≠ q := by omega
      refine ⟨(⟨v, some q, []⟩ : Node), ?_, rfl⟩
      rw [lookup_setNode_ne _ hcne, lookup_append_self]
    · obtain ⟨cnd, hcnd, hpar⟩ := hI q pnd hp c hcold
      by_cases hcp : c = q
      · subst hcp
        rw [hp] at hcnd
        injection hcnd with hcnd
        subst hcnd
        exact ⟨_, lookup_setNode_eq _ hplt1, hpar⟩
      · exact ⟨cnd, by rw [lookup_setNode_ne _ hcp]; exact hlift c cnd hcnd, hpar⟩
  · rw [lookup_setNode_ne _ hqp] at hq
    by_cases hqn : q = h.length
    · subst hqn
      rw [lookup_append_self] at hq
      injection hq with hq
      subst hq
      simp at hc
    · have hqlt : q < h.length := by
        have := lookup_lt_length hq
        simp only [List.length_append, List.length_cons, List.length_nil] at this
        omega
      rw [lookup_append_lt _ hqlt] at hq
      obtain ⟨cnd, hcnd, hpar⟩ := hI q qnd hq c hc
      by_cases hcp : c = p
      · subst hcp
        rw [hp] at hcnd
        injection hcnd with hcnd
        subst hcnd
        exact ⟨_, lookup_setNode_eq _ hplt1, hpar⟩
      · exact ⟨cnd, by rw [lookup_setNode_ne _ hcp]; exact hlift c cnd hcnd, hpar⟩

theorem I2P_attach (h : Heap) (p c : Nat) (cnd pnd1 : Node) (newCh : List Nat)
    (hI : I2P h) (hU : UnattachedP h c)
    (hc : lookup h c = some cnd)
    (hp1 : lookup (setNode h c { cnd with parent := some p }) p = some pnd1)
    (hch : ∀ b ∈ newCh, b = c ∨ b ∈ pnd1.children) :
    I2P (setNode (setNode h c { cnd with parent := some p }) p
      { pnd1 with children := newCh }) := by
  have hclt : c < h.length := lookup_lt_length hc
  have hplt1 : p < (setNode h c { cnd with parent := some p }).length :=
    lookup_lt_length hp1
  have hplt : p < h.length := by rwa [length_setNode] at hplt1
  -- Relate `pnd1` (node `p` after the parent write) to node `p` in `h`.
  obtain ⟨pndH, hpndH, hchEq, hdisj⟩ :
      ∃ pndH, lookup h p = some pndH ∧ pnd1.children = pndH.children ∧
        ((p = c ∧ pnd1.parent = some p) ∨ (p ≠ c ∧ pnd1.parent = pndH.parent)) := by
    by_cases hpc : p = c
    · subst hpc
      rw [lookup_setNode_eq _ hclt] at hp1
      injection hp1 with hp1
      exact ⟨cnd, hc, by rw [← hp1], Or.inl ⟨rfl, by rw [← hp1]⟩⟩
    · rw [lookup_setNode_ne _ hpc] at hp1
      exact ⟨pnd1, hp1, rfl, Or.inr ⟨hpc, rfl⟩⟩
  have hl2p : lookup (setNode (setNode h c { cnd with parent := some p }) p
      { pnd1 with children := newCh }) p = some { pnd1 with children := newCh } :=
    lookup_setNode_eq _ hplt1
  have hl2c : c ≠ p → lookup (setNode (setNode h c { cnd with parent := some p }) p
      { pnd1 with children := newCh }) c = some { cnd with parent := some p } :=
    fun hne => by rw [lookup_setNode_ne _ hne, lookup_setNode_eq _ hclt]
  have hl2other : ∀ x, x ≠ p → x ≠ c →
      lookup (setNode (setNode h c { cnd with parent := some p }) p
        { pnd1 with children := newCh }) x = lookup h x :=
    fun x hxp hxc => by rw [lookup_setNode_ne _ hxp, lookup_setNode_ne _ hxc]
  -- Resolving a node other than `c` whose recorded parent in `h` is `pq`.
  have hres : ∀ pq d dnd, lookup h d = some dnd → dnd.parent = some pq → d ≠ c →
      ∃ dnd', lookup (setNode (setNode h c { cnd with parent := some p }) p
        { pnd1 with children := newCh }) d = some dnd' ∧ dnd'.parent = some pq := by
    intro pq d dnd hdnd hdp hdc
    by_cases hdq : d = p
    · subst hdq
      refine ⟨{ pnd1 with children := newCh }, hl2p, ?_⟩
      rw [hpndH] at hdnd
      injection hdnd with hdnd
      rcases hdisj with ⟨hpc, _⟩ | ⟨_, hpar⟩
      · exact absurd hpc hdc
      · show pnd1.parent = some pq
        rw [hpar, hdnd]
        exact hdp
    · exact ⟨dnd, by rw [hl2other d hdq hdc]; exact hdnd, hdp⟩
  intro q qnd hq d hd
  by_cases hqp : q = p
  · subst hqp
    rw [hl2p] at hq
    injection hq with hq
    subst hq
    rcases hch d hd with hdc | hdold
    · subst hdc
      by_cases hcp : d = q
      · subst hcp
        refine ⟨{ pnd1 with children := newCh }, hl2p, ?_⟩
        rcases hdisj with ⟨_, hpar⟩ | ⟨hpc, _⟩
        · exact hpar
        · exact absurd rfl hpc
      · exact ⟨{ cnd with parent := some q }, hl2c hcp, rfl⟩
    · rw [hchEq] at hdold
      obtain ⟨dnd, hdnd, hdp⟩ := hI q pndH hpndH d hdold
      have hdc : d ≠ c := fun he => hU q pndH hpndH (he ▸ hdold)
      exact hres q d dnd hdnd hdp hdc
  · rw [lookup_setNode_ne _ hqp] at hq
    by_cases hqc : q = c
    · subst hqc
      rw [lookup_setNode_eq _ hclt] at hq
      injection hq with hq
      subst hq
      obtain ⟨dnd, hdnd, hdp⟩ := hI q cnd hc d hd
      have hdc : d ≠ q := fun he => hU q cnd hc (he ▸ hd)
      exact hres q d dnd hdnd hdp hdc
    · rw [lookup_setNode_ne _ hqc] at hq
      obtain ⟨dnd, hdnd, hdp⟩ := hI q qnd hq d hd
      have hdc : d ≠ c := fun he => hU q qnd hq (he ▸ hd)
      exact hres q d dnd hdnd hdp hdc

theorem I2P_execOp (h h' : Heap) (op : Op) (hI : I2P h)
    (hU : ∀ c, adoptedNode op = some c → UnattachedP h c)
    (he : execOp h op = some h') : I2P h' := by
  cases op with
  | insertValue p v idx =>
    simp only [execOp, insertValueF] at he
    rcases hp : lookup h p with _ | pnd
    · simp [hp] at he
    · simp only [hp] at he
      by_cases hidx : idx ≤ pnd.children.length
      · rw [if_pos hidx] at he
        simp only [Option.map_some', Option.some.injEq] at he
        subst he
        exact I2P_insertFresh h p v pnd _ hI hp fun b hb =>
          mem_insertAt.mp hb
      · rw [if_neg hidx] at he
        simp only [appendValueF, hp, Option.map_some', Option.some.injEq] at he
        subst he
        exact I2P_insertFresh h p v pnd _ hI hp fun b hb => by
          rcases List.mem_append.mp hb with hb | hb
          · exact Or.inr hb
          · simp at hb
            exact Or.inl hb
  | appendValue p v =>
    simp only [execOp, appendValueF] at he
    rcases hp : lookup h p with _ | pnd
    · simp [hp] at he
    · simp only [hp, Option.map_some', Option.some.injEq] at he
      subst he
      exact I2P_insertFresh h p v pnd _ hI hp fun b hb => by
        rcases List.mem_append.mp hb with hb | hb
        · exact Or.inr hb
        · simp at hb
          exact Or.inl hb
  | insertNode p c idx =>
    have hUc : UnattachedP h c := hU c rfl
    simp only [execOp, insertNodeF] at he
    rcases hp : lookup h p with _ | pnd
    · simp [hp] at he
    · rcases hc : lookup h c with _ | cnd
      · simp [hp, hc] at he
      · simp only [hp, hc] at he
        by_cases hidx : idx ≤ pnd.children.length
        · rw [if_pos hidx] at he
          rcases hp1 : lookup (setNode h c { cnd with parent := some p }) p with _ | pnd1
          · simp [hp1] at he
          · simp only [hp1, Option.some.injEq] at he
            subst he
            exact I2P_attach h p c cnd pnd1 _ hI hUc hc hp1 fun b hb =>
              mem_insertAt.mp hb
        · rw [if_neg hidx] at he
          simp only [appendNodeF, hp, hc] at he
          rcases hp1 : lookup (setNode h c { cnd with parent := some p }) p with _ | pnd1
          · simp [hp1] at he
          · simp only [hp1, Option.some.injEq] at he
            subst he
            exact I2P_attach h p c cnd pnd1 _ hI hUc hc hp1 fun b hb => by
              rcases List.mem_append.mp hb with hb | hb
              · exact Or.inr hb
              · simp at hb
                exact Or.inl hb
  | appendNode p c =>
    have hUc : UnattachedP h c := hU c rfl
    simp only [execOp, appendNodeF] at he
    rcases hp : lookup h p with _ | pnd
    · simp [hp] at he
    · rcases hc : lookup h c with _ | cnd
      · simp [hp, hc] at he
      · simp only [hp, hc] at he
        rcases hp1 : lookup (setNode h c { cnd with parent := some p }) p with _ | pnd1
        · simp [hp1] at he
        · simp only [hp1, Option.some.injEq] at he
          subst he
          exact I2P_attach h p c cnd pnd1 _ hI hUc hc hp1 fun b hb => by
            rcases List.mem_append.mp hb with hb | hb
            · exact Or.inr hb
            · simp at hb
              exact Or.inl hb
  | removeChildAt p idx =>
    simp only [execOp, removeChildAtF] at he
    rcases hp : lookup h p with _ | pnd
    · simp [hp] at he
    · simp only [hp] at he
      by_cases hidx : idx ≥ pnd.children.length
      · rw [if_pos hidx] at he
        simp at he
      · rw [if_neg hidx] at he
        simp only [Option.some.injEq] at he
        subst he
        exact I2P_setChildren_sub h p pnd _ hI hp fun b hb => mem_eraseAt hb
  | removeChildNode p c =>
    simp only [execOp, removeChildNodeF] at he
    rcases hp : lookup h p with _ | pnd
    · simp [hp] at he
    · simp only [hp, Option.some.injEq, removeChildNodeImpl] at he
      subst he
      exact I2P_setChildren_sub h p pnd _ hI hp fun b hb => mem_eraseFirst hb
  | detatch c =>
    simp only [execOp, detatchF] at he
    rcases hc : lookup h c with _ | cnd
    · simp [hc] at he
    · simp only [hc] at he
      rcases hlk : lockParent h cnd with _ | pid
      · simp only [hlk, Option.map_some', Option.some.injEq] at he
        subst he
        exact hI
      · simp only [hlk, Option.map_some', Option.some.injEq] at he
        subst he
        unfold removeChildNodeImpl
        rcases hp : lookup h pid with _ | pnd
        · exact hI
        · exact I2P_setChildren_sub h pid pnd _ hI hp fun b hb => mem_eraseFirst hb

theorem I2P_safeStep (h h' : Heap) (op : Op) (hI : I2P h)
    (he : safeStep h op = some h') : I2P h' := by
  unfold safeStep at he
  rcases ha : adoptedNode op with _ | c
  · simp only [ha] at he
    exact I2P_execOp h h' op hI (fun c' hc' => absurd (ha ▸ hc') (by simp)) he
  · simp only [ha] at he
    by_cases hb : unattachedB h c = true
    · rw [if_pos hb] at he
      refine I2P_execOp h h' op hI (fun c' hc' => ?_) he
      rw [ha] at hc'
      injection hc' with hc'
      subst hc'
      exact unattachedB_iff.mp hb
    · rw [if_neg hb] at he
      simp at he

/-- C1 (amended): along any sequence of `Insert`/`Append`/`RemoveChild`/
`Detatch` calls in which a pre-existing node handle is only ever inserted or
appended while it is not currently any node's child, invariant I2 is
preserved: whenever `c` appears in `p`'s children, `c` is alive and its
recorded parent resolves to `p`. Insertions establish the child's parent
link within the same call; removals shrink a children list and leave the
removed node's (now stale) parent pointer untouched, which I2 does not
constrain. -/
theorem parent_consistency_safeRun (h : Heap) (ops : List Op) (h' : Heap)
    (hI : I2P h) (hrun : safeRun h ops = some h') : I2P h' := by
  induction ops generalizing h with
  | nil =>
    simp only [safeRun, Option.some.injEq] at hrun
    subst hrun
    exact hI
  | cons op ops ih =>
    simp only [safeRun] at hrun
    rcases hs : safeStep h op with _ | h1
    · rw [hs] at hrun; simp at hrun
    · rw [hs] at hrun
      simp only [Option.some_bind] at hrun
      exact ih h1 (I2P_safeStep h h1 op hI hs) hrun

/-!
Fuel-bounded size on the raw heap: `Tree::TreeSize(startingNode)` counts, for
each child, the child's descendants plus one; the starting node itself is not
counted (the caller adds the 1). Fuel guards against the cyclic heaps the
source warns about; on acyclic heaps any fuel of at least the heap length is
enough.
-/

/-- Descendant count of the node in slot `id`: `Tree::TreeSize(startingNode)`
(tree.hpp:416) adds, for every listed child, the child's own count plus one;
the starting node itself is not counted (the caller adds the 1). `fuel`
bounds the recursion depth because raw heaps may be cyclic; on acyclic heaps
any fuel at least the tree height is enough. -/
def sizeNodeF : Nat → Heap → Nat → Nat
  | 0, _, _ => 0
  | fuel + 1, h, id =>
    match lookup h id with
    | none => 0
    | some nd => (nd.children.map fun c => sizeNodeF fuel h c + 1).sum

/-- The `TreeSize` loop over a children or roots list: every entry
contributes its descendant count plus one. `Tree::TreeSize()` (tree.hpp:396)
is this function applied to `m_root`. -/
def sizeChildrenF (fuel : Nat) (h : Heap) (cs : List Nat) : Nat :=
  (cs.map fun c => sizeNodeF fuel h c + 1).sum

/-- Does the size traversal rooted at slot `id` visit slot `q`? -/
def touchNodeB : Nat → Heap → Nat → Nat → Bool
  | 0, _, _, _ => false
  | fuel + 1, h, id, q =>
    (id == q) ||
      match lookup h id with
      | none => false
      | some nd => nd.children.any fun c => touchNodeB fuel h c q

/-- Two heaps that differ only at slot `p` assign the same size to any node
whose traversal never visits `p`. -/
theorem size_touch_congr (h h' : Heap) (p : Nat)
    (hagree : ∀ q, q ≠ p → lookup h' q = lookup h q) :
    ∀ fuel id, touchNodeB fuel h id p = false →
      sizeNodeF fuel h' id = sizeNodeF fuel h id := by
  intro fuel
  induction fuel with
  | zero => exact fun id _ => rfl
  | succ fuel ihf =>
    intro id hto
    simp only [touchNodeB, Bool.or_eq_false_iff] at hto
    obtain ⟨hidp, hrest⟩ := hto
    have hne : id ≠ p := by simpa using hidp
    simp only [sizeNodeF, hagree id hne]
    rcases hl : lookup h id with _ | nd
    · rfl
    · simp only [hl] at hrest
      have hlist : ∀ cs : List Nat, (cs.any fun c => touchNodeB fuel h c p) = false →
          (cs.map fun c => sizeNodeF fuel h' c + 1).sum =
            (cs.map fun c => sizeNodeF fuel h c + 1).sum := by
        intro cs
        induction cs with
        | nil => exact fun _ => rfl
        | cons c cs ihcs =>
          intro hcs
          simp only [List.any_cons, Bool.or_eq_false_iff] at hcs
          simp only [List.map_cons, List.sum_cons]
          rw [ihf c hcs.1, ihcs hcs.2]
      exact hlist nd.children hrest

/-!
Claim theorems settled on the heap model.
-/

/-- C1 counterexample: as literally stated the claim is false. Starting from
two standalone roots (I2 holds), the two-call sequence `Append(5)` on node 0
followed by `Insert(existing node 2, 0)` on node 1 leaves node 2 in node 0's
children while node 2's recorded parent resolves to node 1: `Insert` of an
existing node overwrites the parent link but never removes the node from its
previous parent's children. -/
theorem parent_consistency_counterexample :
    I2P [some ⟨0, none, []⟩, some ⟨1, none, []⟩] ∧
    execList [some ⟨0, none, []⟩, some ⟨1, none, []⟩]
        [Op.appendValue 0 5, Op.insertNode 1 2 0] =
      some [some ⟨0, none, [2]⟩, some ⟨1, none, [2]⟩, some ⟨5, some 1, []⟩] ∧
    ¬ I2P [some ⟨0, none, [2]⟩, some ⟨1, none, [2]⟩, some ⟨5, some 1, []⟩] :=
  ⟨by decide, by decide, by decide⟩

/-- Witness for C1: a concrete safe sequence (value append, value insert,
detach, remove-by-handle, append of the now-unattached existing node) run
from a single root preserves I2. -/
theorem parent_consistency_safeRun_witness :
    I2P [some ⟨7, none, [1]⟩, some ⟨1, some 0, []⟩, some ⟨2, some 0, []⟩] :=
  parent_consistency_safeRun [some ⟨7, none, []⟩]
    [Op.appendValue 0 1, Op.insertValue 0 2 0, Op.detatch 1,
      Op.removeChildNode 0 2, Op.appendNode 0 1]
    [some ⟨7, none, [1]⟩, some ⟨1, some 0, []⟩, some ⟨2, some 0, []⟩]
    (by decide) (by decide)

/-- C3 counterexample: `Detatch` does not clear the detached node's parent
reference. After detaching node 1 from its live parent 0, node 1's
`m_parent` still holds slot 0 (which is still alive, so it still resolves),
contradicting the claim that the operation clears it. -/
theorem detatch_parent_not_cleared :
    detatchF [some ⟨10, none, [1]⟩, some ⟨20, some 0, []⟩] 1 =
      some ([some ⟨10, none, []⟩, some ⟨20, some 0, []⟩], some 1) ∧
    lookup [some ⟨10, none, []⟩, some ⟨20, some 0, []⟩] 1 =
      some ⟨20, some 0, []⟩ ∧
    (⟨20, some 0, []⟩ : Node).parent ≠ none :=
  ⟨by decide, by decide, by decide⟩

/-- C3 (amended): `Detatch` on a node `c` with a live parent `p` erases the
first occurrence of `c` from `p`'s children and returns the handle to `c`;
every heap slot other than `p` — in particular `c` itself and its whole
subtree — is untouched, so the detached node's one-root-forest size is
unchanged (for any traversal depth whose walk from `c` does not pass through
`p`); the node's own parent reference is left as it was, still naming `p`,
rather than being cleared. -/
theorem detatch_removes_child (h : Heap) (c p : Nat) (cnd pnd : Node)
    (hc : lookup h c = some cnd) (hcp : cnd.parent = some p)
    (hp : lookup h p = some pnd) (hne : p ≠ c) :
    detatchF h c =
      some (setNode h p { pnd with children := eraseFirst pnd.children c }, some c) ∧
    lookup (setNode h p { pnd with children := eraseFirst pnd.children c }) c =
      some cnd ∧
    (∀ q, q ≠ p →
      lookup (setNode h p { pnd with children := eraseFirst pnd.children c }) q =
        lookup h q) ∧
    (countOcc pnd.children c ≤ 1 → c ∉ eraseFirst pnd.children c) ∧
    (∀ fuel, touchNodeB fuel h c p = false →
      sizeChildrenF fuel
          (setNode h p { pnd with children := eraseFirst pnd.children c }) [c] =
        sizeChildrenF fuel h [c]) := by
  have hagree : ∀ q, q ≠ p →
      lookup (setNode h p { pnd with children := eraseFirst pnd.children c }) q =
        lookup h q := fun q hq => lookup_setNode_ne _ hq
  refine ⟨?_, ?_, hagree, fun hcount => not_mem_eraseFirst_of_countOcc_le_one hcount,
    fun fuel htouch => ?_⟩
  · simp [detatchF, lockParent, removeChildNodeImpl, hc, hcp, hp]
  · rw [hagree c (Ne.symm hne)]
    exact hc
  · simp only [sizeChildrenF, List.map_cons, List.map_nil]
    rw [size_touch_congr h
      (setNode h p { pnd with children := eraseFirst pnd.children c }) p hagree fuel
      c htouch]

/-- Witness for C3: detaching node 1 (one grandchild, hence one-root-forest
size 2) from root 0 removes it from the root's children, leaves its parent
field and subtree intact, and preserves its standalone size. -/
theorem detatch_removes_child_witness :
    detatchF [some ⟨10, none, [1]⟩, some ⟨20, some 0, [2]⟩, some ⟨30, some 1, []⟩] 1 =
      some ([some ⟨10, none, []⟩, some ⟨20, some 0, [2]⟩, some ⟨30, some 1, []⟩],
        some 1) ∧
    sizeChildrenF 5
        [some ⟨10, none, []⟩, some ⟨20, some 0, [2]⟩, some ⟨30, some 1, []⟩] [1] =
      sizeChildrenF 5
        [some ⟨10, none, [1]⟩, some ⟨20, some 0, [2]⟩, some ⟨30, some 1, []⟩] [1] := by
  have hmain := detatch_removes_child
    [some ⟨10, none, [1]⟩, some ⟨20, some 0, [2]⟩, some ⟨30, some 1, []⟩] 1 0
    ⟨20, some 0, [2]⟩ ⟨10, none, [1]⟩ rfl rfl rfl (by decide)
  exact ⟨hmain.1, hmain.2.2.2.2 5 (by decide)⟩

/-- C8: a stale parent pointer is not a reported failure. With slot 0 already
destroyed, node 1's `m_parent.lock()` is null, so the outer guard of
`Detatch` is false and the call returns `shared_from_this()` — a success
handle, not the empty result the claim describes; the `return nullptr`
branch commented `Parent does not exist` is unreachable because the same
lock is tested twice. -/
theorem detatch_stale_parent_returns_self :
    detatchF [none, some ⟨5, some 0, []⟩] 1 =
      some ([none, some ⟨5, some 0, []⟩], some 1) ∧
    (some 1 : Option Nat) ≠ none :=
  ⟨by decide, by decide⟩

/-- C9: `Drop` on a node `c` with a live parent `p` removes `c` from `p`'s
children exactly as `Detatch` does (same resulting heap) and returns `c`'s
own children list; afterwards `c` is no longer among `p`'s children (given
it appeared at most once), so discarding the returned handle leaves it
unreachable from its former parent. -/
theorem drop_spec (h : Heap) (c p : Nat) (cnd pnd : Node)
    (hc : lookup h c = some cnd) (hcp : cnd.parent = some p)
    (hp : lookup h p = some pnd) (hne : p ≠ c) :
    dropF h c =
      some (setNode h p { pnd with children := eraseFirst pnd.children c },
        cnd.children) ∧
    (dropF h c).map Prod.fst = (detatchF h c).map Prod.fst ∧
    (countOcc pnd.children c ≤ 1 → c ∉ eraseFirst pnd.children c) := by
  have h1c : lookup (setNode h p { pnd with children := eraseFirst pnd.children c }) c =
      some cnd := by
    rw [lookup_setNode_ne _ (Ne.symm hne)]
    exact hc
  refine ⟨?_, ?_, fun hcount => not_mem_eraseFirst_of_countOcc_le_one hcount⟩
  · simp [dropF, lockParent, removeChildNodeImpl, hc, hcp, hp, h1c]
  · simp [dropF, detatchF, lockParent, removeChildNodeImpl, hc, hcp, hp, h1c]

/-- Witness for C9: dropping node 1 from root 0 hands back its child list
`[2]` and erases it from the root's children. -/
theorem drop_spec_witness :
    dropF [some ⟨0, none, [1]⟩, some ⟨4, some 0, [2]⟩, some ⟨9, some 1, []⟩] 1 =
      some ([some ⟨0, none, []⟩, some ⟨4, some 0, [2]⟩, some ⟨9, some 1, []⟩], [2]) :=
  (drop_spec [some ⟨0, none, [1]⟩, some ⟨4, some 0, [2]⟩, some ⟨9, some 1, []⟩] 1 0
    ⟨4, some 0, [2]⟩ ⟨0, none, [1]⟩ rfl rfl rfl (by decide)).1

/-!
Rose-tree view of the `m_children` structure, for the size-related claims.
A node is its content plus the ordered forest of its child subtrees; a
position in a forest is a path of child indices whose first entry selects a
root. Parent pointers play no role in `Append`, `RecursiveDrop` or
`Tree::TreeSize`, which walk `m_children` only.
-/

mutual

/-- A `TreeNode` subtree: `m_content` and the subtrees of `m_children`. -/
inductive RTree where
  | mk (content : Int) (children : RForest)

/-- An ordered list of owned subtrees (a `std::vector` of children, or the
`m_root` vector of a `Tree`). -/
inductive RForest where
  | nil
  | cons (t : RTree) (ts : RForest)

end

mutual

/-- Descendant count of a node: `Tree::TreeSize(startingNode)`
(tree.hpp:416-432) sums, over the children, each child's count plus one;
the starting node itself is not counted (the caller adds its 1). -/
def TreeSizeNode : RTree → Nat
  | .mk _ cs => TreeSizeChildren cs

/-- The `TreeSize` loop over a list of nodes: each contributes its
descendant count plus one. -/
def TreeSizeChildren : RForest → Nat
  | .nil => 0
  | .cons t ts => (TreeSizeNode t + 1) + TreeSizeChildren ts

end

/-- `Tree::TreeSize()` (tree.hpp:396-414): the same loop over `m_root`. -/
def TreeSize (roots : RForest) : Nat := TreeSizeChildren roots

/-- Index into a forest (`vector::operator[]`, checked). -/
def fget : RForest → Nat → Option RTree
  | .nil, _ => none
  | .cons t _, 0 => some t
  | .cons _ ts, i + 1 => fget ts i

/-- Replace the entry at an index (no effect past the end). -/
def fset : RForest → Nat → RTree → RForest
  | .nil, _, _ => .nil
  | .cons _ ts, 0, t => .cons t ts
  | .cons x ts, i + 1, t => .cons x (fset ts i t)

/-- `push_back`. -/
def fpush : RForest → RTree → RForest
  | .nil, t => .cons t .nil
  | .cons x ts, t => .cons x (fpush ts t)

/-- Apply `f` to the subtree at `path` inside a tree. -/
def modifyAtT : RTree → List Nat → (RTree → RTree) → Option RTree
  | t, [], f => some (f t)
  | .mk v cs, i :: rest, f =>
    match fget cs i with
    | none => none
    | some c => (modifyAtT c rest f).map fun c2 => .mk v (fset cs i c2)

/-- Apply `f` to the subtree at `path` inside a forest (first index picks
the root). -/
def modifyAtF (roots : RForest) (path : List Nat) (f : RTree → RTree) :
    Option RForest :=
  match path with
  | [] => none
  | i :: rest =>
    match fget roots i with
    | none => none
    | some t => (modifyAtT t rest f).map fun t2 => fset roots i t2

/-- Read the subtree at `path` inside a tree. -/
def getAtT : RTree → List Nat → Option RTree
  | t, [] => some t
  | .mk _ cs, i :: rest =>
    match fget cs i with
    | none => none
    | some c => getAtT c rest

/-- Read the subtree at `path` inside a forest. -/
def getAtF (roots : RForest) (path : List Nat) : Option RTree :=
  match path with
  | [] => none
  | i :: rest =>
    match fget roots i with
    | none => none
    | some t => getAtT t rest

/-- `TreeNode::RecursiveDrop` (tree.hpp:288-296): every child is recursively
dropped in place, then `m_children.clear()` discards the (already processed)
children; the net effect on the subtree rooted at the node is an emptied
children list. The node is never removed from its parent. -/
def RecursiveDropNode : RTree → RTree
  | .mk v _ => .mk v .nil

/-- `RecursiveDrop` called on the node at `path` of a forest. -/
def recursiveDropAt (roots : RForest) (path : List Nat) : Option RForest :=
  modifyAtF roots path RecursiveDropNode

/-- `TreeNode::Append(value)` (tree.hpp:156-162): `push_back` a fresh leaf. -/
def appendChild (v : Int) : RTree → RTree
  | .mk w cs => .mk w (fpush cs (.mk v .nil))

/-- `Append(value)` called on the node at `path` of a forest. -/
def appendAt (roots : RForest) (path : List Nat) (v : Int) : Option RForest :=
  modifyAtF roots path (appendChild v)

/-- Run a list of `Append(value)` calls, each addressed by path. -/
def buildN (roots : RForest) : List (List Nat × Int) → Option RForest
  | [] => some roots
  | (path, v) :: ops => (appendAt roots path v).bind fun roots2 => buildN roots2 ops

theorem fget_fset_eq {cs : RForest} {i : Nat} {c : RTree} (t : RTree)
    (hget : fget cs i = some c) : fget (fset cs i t) i = some t := by
  induction i generalizing cs with
  | zero =>
    cases cs with
    | nil => simp [fget] at hget
    | cons x ts => rfl
  | succ n ih =>
    cases cs with
    | nil => simp [fget] at hget
    | cons x ts => exact ih hget

theorem TreeSizeChildren_fset {cs : RForest} {i : Nat} {c : RTree} (t : RTree)
    (hget : fget cs i = some c) :
    TreeSizeChildren (fset cs i t) + TreeSizeNode c =
      TreeSizeChildren cs + TreeSizeNode t := by
  induction i generalizing cs with
  | zero =>
    cases cs with
    | nil => simp [fget] at hget
    | cons x ts =>
      simp only [fget, Option.some.injEq] at hget
      subst hget
      simp only [fset, TreeSizeChildren]
      omega
  | succ n ih =>
    cases cs with
    | nil => simp [fget] at hget
    | cons x ts =>
      simp only [fget] at hget
      have hrec := ih hget
      simp only [fset, TreeSizeChildren]
      omega

theorem TreeSizeChildren_fpush : ∀ (cs : RForest) (t : RTree),
    TreeSizeChildren (fpush cs t) = TreeSizeChildren cs + (TreeSizeNode t + 1)
  | .nil, t => by simp [fpush, TreeSizeChildren]
  | .cons x ts, t => by
    have := TreeSizeChildren_fpush ts t
    simp only [fpush, TreeSizeChildren]
    omega

theorem modifyAtT_spec (path : List Nat) (t t' : RTree) (f : RTree → RTree)
    (hm : modifyAtT t path f = some t') :
    ∃ s, getAtT t path = some s ∧ getAtT t' path = some (f s) ∧
      TreeSizeNode t' + TreeSizeNode s = TreeSizeNode t + TreeSizeNode (f s) := by
  induction path generalizing t t' with
  | nil =>
    simp only [modifyAtT, Option.some.injEq] at hm
    subst hm
    exact ⟨t, by simp [getAtT], by simp [getAtT], by omega⟩
  | cons i rest ih =>
    rcases t with ⟨v, cs⟩
    simp only [modifyAtT] at hm
    rcases hget : fget cs i with _ | c
    · simp [hget] at hm
    · simp only [hget] at hm
      rcases hrec : modifyAtT c rest f with _ | c'
      · simp [hrec] at hm
      · simp only [hrec, Option.map_some', Option.some.injEq] at hm
        subst hm
        obtain ⟨s, hg, hg', harith⟩ := ih c c' hrec
        refine ⟨s, ?_, ?_, ?_⟩
        · simp only [getAtT, hget]
          exact hg
        · simp only [getAtT, fget_fset_eq c' hget]
          exact hg'
        · have hfs := TreeSizeChildren_fset c' hget
          simp only [TreeSizeNode]
          omega

theorem modifyAtF_spec (path : List Nat) (roots roots' : RForest)
    (f : RTree → RTree) (hm : modifyAtF roots path f = some roots') :
    ∃ s, getAtF roots path = some s ∧ getAtF roots' path = some (f s) ∧
      TreeSize roots' + TreeSizeNode s = TreeSize roots + TreeSizeNode (f s) := by
  rcases path with _ | ⟨i, rest⟩
  · simp [modifyAtF] at hm
  · simp only [modifyAtF] at hm
    rcases hget : fget roots i with _ | t
    · simp [hget] at hm
    · simp only [hget] at hm
      rcases hrec : modifyAtT t rest f with _ | t'
      · simp [hrec] at hm
      · simp only [hrec, Option.map_some', Option.some.injEq] at hm
        subst hm
        obtain ⟨s, hg, hg', harith⟩ := modifyAtT_spec rest t t' f hrec
        refine ⟨s, ?_, ?_, ?_⟩
        · simp only [getAtF, hget]
          exact hg
        · simp only [getAtF, fget_fset_eq t' hget]
          exact hg'
        · have hfs := TreeSizeChildren_fset t' hget
          simp only [TreeSize]
          omega

theorem buildN_size (ops : List (List Nat × Int)) (roots roots' : RForest)
    (hb : buildN roots ops = some roots') :
    TreeSize roots' = TreeSize roots + ops.length := by
  induction ops generalizing roots with
  | nil =>
    simp only [buildN, Option.some.injEq] at hb
    subst hb
    simp
  | cons op ops ih =>
    rcases op with ⟨path, v⟩
    simp only [buildN] at hb
    rcases ha : appendAt roots path v with _ | r1
    · rw [ha] at hb; simp at hb
    · rw [ha] at hb
      simp only [Option.some_bind] at hb
      obtain ⟨s, _, _, harith⟩ := modifyAtF_spec path roots r1 (appendChild v) ha
      have hstep : TreeSize r1 = TreeSize roots + 1 := by
        rcases s with ⟨w, cs⟩
        simp only [appendChild, TreeSizeNode, TreeSizeChildren_fpush] at harith
        simp only [TreeSizeNode, TreeSizeChildren] at harith
        omega
      have := ih r1 hb
      simp only [List.length_cons]
      omega

/-- C2 counterexample: `RecursiveDrop` never removes the node from its
parent. On a chain root → child → grandchild, calling it on the child
empties the child's subtree but leaves the child itself attached: the tree
still reaches it, and `TreeSize` drops from 3 to 2, not to 1 as the claim's
`1 + descendant count` decrease requires. -/
theorem recursiveDrop_leaves_node :
    recursiveDropAt
        (.cons (.mk 0 (.cons (.mk 1 (.cons (.mk 2 .nil) .nil)) .nil)) .nil) [0, 0] =
      some (.cons (.mk 0 (.cons (.mk 1 .nil) .nil)) .nil) ∧
    TreeSize (.cons (.mk 0 (.cons (.mk 1 (.cons (.mk 2 .nil) .nil)) .nil)) .nil) = 3 ∧
    TreeSize (.cons (.mk 0 (.cons (.mk 1 .nil) .nil)) .nil) = 2 ∧
    getAtF (.cons (.mk 0 (.cons (.mk 1 .nil) .nil)) .nil) [0, 0] =
      some (.mk 1 .nil) ∧
    2 ≠ 3 - (1 + 1) :=
  ⟨rfl, rfl, rfl, rfl, by decide⟩

/-- C2 (amended): `RecursiveDrop` on the node at `path` recursively releases
everything below it and clears its own children list, but the node itself
stays attached to its parent with its content intact, so the tree's size
decreases by exactly the node's former descendant count (not by one more):
the source clears `m_children` but never removes `this` from its parent. -/
theorem recursiveDrop_spec (roots roots' : RForest) (path : List Nat)
    (hr : recursiveDropAt roots path = some roots') :
    ∃ v cs, getAtF roots path = some (.mk v cs) ∧
      getAtF roots' path = some (.mk v .nil) ∧
      TreeSize roots' + TreeSizeChildren cs = TreeSize roots := by
  obtain ⟨s, hg, hg', harith⟩ := modifyAtF_spec path roots roots' RecursiveDropNode hr
  rcases s with ⟨v, cs⟩
  refine ⟨v, cs, hg, ?_, ?_⟩
  · simpa [RecursiveDropNode] using hg'
  · simp only [RecursiveDropNode, TreeSizeNode, TreeSizeChildren] at harith
    omega

/-- Witness for C2: dropping the child (one descendant) of a 3-node chain
leaves it reachable, emptied, and shrinks the size by exactly 1. -/
theorem recursiveDrop_spec_witness :
    ∃ v cs,
      getAtF (.cons (.mk 5 (.cons (.mk 6 (.cons (.mk 7 .nil) .nil)) .nil)) .nil)
          [0, 0] =
        some (.mk v cs) ∧
      getAtF (.cons (.mk 5 (.cons (.mk 6 .nil) .nil)) .nil) [0, 0] =
        some (.mk v .nil) ∧
      TreeSize (.cons (.mk 5 (.cons (.mk 6 .nil) .nil)) .nil) + TreeSizeChildren cs =
        TreeSize (.cons (.mk 5 (.cons (.mk 6 (.cons (.mk 7 .nil) .nil)) .nil)) .nil) :=
  recursiveDrop_spec
    (.cons (.mk 5 (.cons (.mk 6 (.cons (.mk 7 .nil) .nil)) .nil)) .nil)
    (.cons (.mk 5 (.cons (.mk 6 .nil) .nil)) .nil) [0, 0] rfl

/-- C7: `Tree::TreeSize` counts one per node by recursive descent (each child
contributes its recursive size plus one, and each root adds one), so a tree
built from one root by `N` successful `Append(value)` calls — each adding
exactly one leaf under some existing node, addressed here by its path — has
size `N + 1`. -/
theorem append_size_invariant (v : Int) (ops : List (List Nat × Int))
    (roots' : RForest)
    (hb : buildN (.cons (.mk v .nil) .nil) ops = some roots') :
    TreeSize roots' = ops.length + 1 := by
  have htotal := buildN_size ops (.cons (.mk v .nil) .nil) roots' hb
  simp only [TreeSize, TreeSizeChildren, TreeSizeNode] at htotal ⊢
  omega

/-- Witness for C7: three appends (two to the root, one to the root's second
child) starting from a single root give a tree of size 4. -/
theorem append_size_invariant_witness :
    TreeSize (.cons (.mk 9 (.cons (.mk 1 .nil)
        (.cons (.mk 2 (.cons (.mk 3 .nil) .nil)) .nil))) .nil) = 3 + 1 :=
  append_size_invariant 9 [([0], 1), ([0], 2), ([0, 1], 3)]
    (.cons (.mk 9 (.cons (.mk 1 .nil)
      (.cons (.mk 2 (.cons (.mk 3 .nil) .nil)) .nil))) .nil) rfl

/-!
Relational operators of `TreeNode` (tree.hpp:332-366), content instantiated
at `Int`. Each function is one `friend operator`; none of them reads
`m_parent` or `m_children`.
-/

/-- `operator==(node, node)` (tree.hpp:333): compares `m_content`. -/
def nodeEqNodeB (l r : Node) : Bool := l.content == r.content

/-- `operator==(node, value)` (tree.hpp:336). -/
def nodeEqValB (l : Node) (r : Int) : Bool := l.content == r

/-- `operator!=(node, node)` (tree.hpp:339): negation of `==`. -/
def nodeNeNodeB (l r : Node) : Bool := !(nodeEqNodeB l r)

/-- `operator!=(node, value)` (tree.hpp:342). -/
def nodeNeValB (l : Node) (r : Int) : Bool := !(nodeEqValB l r)

/-- `operator<(node, node)` (tree.hpp:345). -/
def nodeLtNodeB (l r : Node) : Bool := decide (l.content < r.content)

/-- `operator<(node, value)` (tree.hpp:348). -/
def nodeLtValB (l : Node) (r : Int) : Bool := decide (l.content < r)

/-- `operator>(node, node)` (tree.hpp:351). -/
def nodeGtNodeB (l r : Node) : Bool := decide (l.content > r.content)

/-- `operator>(node, value)` (tree.hpp:354): the source body is
`lhs.m_content < rhs` — a `<` where every neighbouring operator and the
node-node overload use `>`. -/
def nodeGtValB (l : Node) (r : Int) : Bool := decide (l.content < r)

/-- `operator<=(node, node)` (tree.hpp:357): negation of `>`. -/
def nodeLeNodeB (l r : Node) : Bool := !(nodeGtNodeB l r)

/-- `operator<=(node, value)` (tree.hpp:360): negation of the (buggy) `>`. -/
def nodeLeValB (l : Node) (r : Int) : Bool := !(nodeGtValB l r)

/-- `operator>=(node, node)` (tree.hpp:363): negation of `<`. -/
def nodeGeNodeB (l r : Node) : Bool := !(nodeLtNodeB l r)

/-- `operator>=(node, value)` (tree.hpp:366). -/
def nodeGeValB (l : Node) (r : Int) : Bool := !(nodeLtValB l r)

/-- C4: with contents `1 < 2`, the node-node comparisons and most
node-value comparisons delegate to the content comparison as claimed, but
`nodeB > 1` evaluates `2 < 1 = false` although the content-level `2 > 1`
is true (and consequently `nodeB <= 1` is true although `2 <= 1` is
false): `operator>(node, value)` compares with `<`, so the delegation
claim fails for node-versus-content `>` and `<=`. -/
theorem relational_delegation_eval :
    nodeLtNodeB ⟨1, none, []⟩ ⟨2, none, []⟩ = true ∧
    nodeLeNodeB ⟨1, none, []⟩ ⟨2, none, []⟩ = true ∧
    nodeGtNodeB ⟨1, none, []⟩ ⟨2, none, []⟩ = false ∧
    nodeEqNodeB ⟨1, none, []⟩ ⟨2, none, []⟩ = false ∧
    nodeEqValB ⟨1, none, []⟩ 1 = true ∧
    nodeLtValB ⟨1, none, []⟩ 2 = true ∧
    nodeGtValB ⟨2, none, []⟩ 1 = false ∧ ((2 : Int) > 1) ∧
    nodeLeValB ⟨2, none, []⟩ 1 = true ∧ ¬ ((2 : Int) ≤ 1) :=
  ⟨by decide, by decide, by decide, by decide, by decide,
    by decide, by decide, by decide, by decide, by decide⟩

/-- Position of the first occurrence (`std::find`) in a children vector. -/
def firstIdx : List Nat → Nat → Option Nat
  | [], _ => none
  | x :: xs, t => if x = t then some 0 else (firstIdx xs t).map (· + 1)

/-- `TreeNode::FindChild` (tree.hpp:272-276): `std::find` over `m_children`;
the absent case yields -1, but the found case returns
`m_children.end() - result` — the distance from the found element to the
end (`length - index`), not the 0-based index. -/
def FindChild (children : List Nat) (target : Nat) : Int :=
  match firstIdx children target with
  | none => -1
  | some i => (children.length : Int) - i

/-- C5: `FindChild` does not return the 0-based position. For the child at
position 0 of a 2-element vector it returns 2 (`end - result`), and for a
single-element vector it returns 1; only the absent case (-1) matches the
claim. -/
theorem findChild_returns_distance_to_end :
    FindChild [7, 4] 7 = 2 ∧ (2 : Int) ≠ 0 ∧
    FindChild [7] 7 = 1 ∧ (1 : Int) ≠ 0 ∧
    FindChild [7, 4] 5 = -1 :=
  ⟨by decide, by decide, by decide, by decide, by decide⟩

theorem get?_append_length (l : List Nat) (a : Nat) :
    (l ++ [a]).get? l.length = some a := by
  induction l with
  | nil => rfl
  | cons x xs ih => simp only [List.cons_append, List.length_cons, List.get?]; exact ih

/-- C6: insert-like operations clamp an out-of-range index to append. For a
live node `p`: an index at most the child count inserts the fresh child at
exactly that position; a larger index makes `Insert(value, index)` behave
exactly as `Append(value)`, placing the new child at the end.
`Tree::AddRootNode(content, index)` applies the same policy to `m_root`: a
negative or past-the-end index appends, an in-range index inserts at the
index. -/
theorem insert_index_clamps (h : Heap) (p : Nat) (v : Int) (idx : Nat) (pnd : Node)
    (hp : lookup h p = some pnd) :
    (idx ≤ pnd.children.length →
      insertValueF h p v idx =
        some (setNode (h ++ [some ⟨v, some p, []⟩]) p
          { pnd with children := insertAt pnd.children idx h.length }, h.length) ∧
      (insertAt pnd.children idx h.length).get? idx = some h.length) ∧
    (pnd.children.length < idx →
      insertValueF h p v idx = appendValueF h p v ∧
      appendValueF h p v =
        some (setNode (h ++ [some ⟨v, some p, []⟩]) p
          { pnd with children := pnd.children ++ [h.length] }, h.length) ∧
      (pnd.children ++ [h.length]).get? pnd.children.length = some h.length) ∧
    (∀ (roots : List Nat) (w : Int) (index : Int),
      ((index < 0 ∨ (roots.length : Int) < index) →
        addRootNodeContentF h roots w index =
          (h ++ [some ⟨w, none, []⟩], roots ++ [h.length])) ∧
      (0 ≤ index → index ≤ (roots.length : Int) →
        addRootNodeContentF h roots w index =
          (h ++ [some ⟨w, none, []⟩], insertAt roots index.toNat h.length))) := by
  refine ⟨fun hidx => ⟨?_, get?_insertAt_self _ hidx⟩,
    fun hidx => ⟨?_, ?_, get?_append_length _ _⟩,
    fun roots w index => ⟨fun hcond => ?_, ?_⟩⟩
  · simp only [insertValueF, hp, if_pos hidx]
  · have hnot : ¬ idx ≤ pnd.children.length := not_le.mpr hidx
    simp only [insertValueF, hp, if_neg hnot]
  · simp only [appendValueF, hp]
  · simp only [addRootNodeContentF, if_pos hcond]
  · intro h0 hlen
    have hcond : ¬ (index < 0 ∨ (roots.length : Int) < index) := by
      push_neg
      exact ⟨h0, hlen⟩
    simp only [addRootNodeContentF, if_neg hcond]

/-- Witness for C6: on a node with three children, `Insert(value, 999)`
behaves as `Append` and the new child (slot 4) lands at position 3; on a
two-root forest, `AddRootNode(content, 7)` appends while
`AddRootNode(content, 1)` inserts at position 1. -/
theorem insert_index_clamps_witness :
    insertValueF
        [some ⟨0, none, [1, 2, 3]⟩, some ⟨1, some 0, []⟩, some ⟨2, some 0, []⟩,
          some ⟨3, some 0, []⟩] 0 9 999 =
      appendValueF
        [some ⟨0, none, [1, 2, 3]⟩, some ⟨1, some 0, []⟩, some ⟨2, some 0, []⟩,
          some ⟨3, some 0, []⟩] 0 9 ∧
    ([1, 2, 3] ++ [4]).get? 3 = some 4 ∧
    (addRootNodeContentF
        [some ⟨0, none, [1, 2, 3]⟩, some ⟨1, some 0, []⟩, some ⟨2, some 0, []⟩,
          some ⟨3, some 0, []⟩] [0, 2] 8 7).2 = [0, 2] ++ [4] ∧
    (addRootNodeContentF
        [some ⟨0, none, [1, 2, 3]⟩, some ⟨1, some 0, []⟩, some ⟨2, some 0, []⟩,
          some ⟨3, some 0, []⟩] [0, 2] 8 1).2 = insertAt [0, 2] 1 4 := by
  have hmain := insert_index_clamps
    [some ⟨0, none, [1, 2, 3]⟩, some ⟨1, some 0, []⟩, some ⟨2, some 0, []⟩,
      some ⟨3, some 0, []⟩] 0 9 999 ⟨0, none, [1, 2, 3]⟩ rfl
  have hout := hmain.2.1 (by decide)
  refine ⟨hout.1, hout.2.2, ?_, ?_⟩
  · exact congrArg Prod.snd ((hmain.2.2 [0, 2] 8 7).1 (by decide))
  · exact congrArg Prod.snd ((hmain.2.2 [0, 2] 8 1).2 (by decide) (by decide))

/-- Result of `TreeNode::Child`: a null pointer, a child handle, or an
unchecked read past the end of the vector. -/
inductive ChildRes where
  | null
  | ok (slot : Nat)
  | oob
deriving DecidableEq

/-- `TreeNode::Child(index)` (tree.hpp:236-248): no children yields null; a
negative index or one strictly greater than the size yields the last child;
otherwise `m_children[index]` is read unchecked, so `index == size` slips
past both guards and reads one past the end. -/
def ChildF (children : List Nat) (index : Int) : ChildRes :=
  if children.length = 0 then .null
  else if index < 0 ∨ (children.length : Int) < index then
    .ok (children.getD (children.length - 1) 0)
  else
    match children.get? index.toNat with
    | some c => .ok c
    | none => .oob

/-- C10: `Child` is not in-bounds at the boundary `index == size`: on a node
with one child, `Child(1)` passes the `index > size` guard (1 is not
greater than 1) and reads `m_children[1]`, one past the end. The other
cases behave as the claim says: no children gives null, negative or
strictly-past-the-end indexes give the last child, valid indexes give that
child. -/
theorem child_boundary_out_of_bounds :
    ChildF [5] 1 = .oob ∧
    ChildF [5] 2 = .ok 5 ∧
    ChildF [] 0 = .null ∧
    ChildF [5] (-1) = .ok 5 ∧
    ChildF [5, 6] 1 = .ok 6 :=
  ⟨by decide, by decide, by decide, by decide, by decide⟩

end CppTrees
